import Mathlib

/-!
Verification of the polite-call admission/backoff/queueing engine.

The definitions below are a shallow embedding of `src/index.ts` (class
`CallHandler`, plus the module-level `timeout` helper) and, where a claim
cites it, of the legacy duplicate `src/main.ts` (class `RequestHandler`).
JavaScript numbers used as counters, amounts and millisecond durations are
modelled as `Nat` (the program only ever adds and subtracts matched
amounts, and all durations handled are non-negative).  Promises are
modelled by their settled outcome `Except ε α` (rejection value of type
`ε`, resolution value of type `α`); the caller-visible rejection channel is
`Option ε`, with `none` standing for JavaScript's `undefined`.
-/

namespace PoliteCall

/-- Behaviour of one attempt of the wrapped operation.  In JavaScript,
evaluating `request()` either returns a promise that later resolves
(`ok`), returns a promise that later rejects (`rejects`), or throws
synchronously before any promise exists (`throws`).  Both failure shapes
are funnelled into `sendReq`'s `catch` block: a synchronous throw is
caught at the `request()` call itself, a rejection at `await reqPromise`. -/
inductive Attempt (ε α : Type) where
  | ok (v : α)
  | rejects (e : ε)
  | throws (e : ε)
deriving DecidableEq

/-- Causally ordered events of one call's asynchronous chain, as produced
by `CallHandler.sendReq` / `CallHandler.blockRequests`
(src/index.ts lines 75-106).

* `invoke n` — `request()` is evaluated for attempt number `n`;
* `inc a` — `this.requestsLastPeriod = this.requestsLastPeriod + amount`
  runs with `amount = a` (the synchronous prefix of `blockRequests`);
* `schedRelease a d` — a matching decrement of `a` has been scheduled to
  run after duration `d` via `timeout` (the fire-and-forget
  `this.blockRequests(timeout(this.periodLength))` on the happy path);
  the decrement itself runs concurrently with the rest of the chain, so
  no ordered `dec` event is recorded for it;
* `wait d` — the backoff delay `timeout(wait, …)` of `d` ms has elapsed;
* `dec a` — `this.requestsLastPeriod = this.requestsLastPeriod - amount`
  runs in `blockRequests`'s `finally` block with `amount = a`;
* `drain` — `this.checkQueue()` is invoked. -/
inductive Ev where
  | invoke (attemptNr : Nat)
  | inc (amount : Nat)
  | schedRelease (amount duration : Nat)
  | wait (d : Nat)
  | dec (amount : Nat)
  | drain
deriving DecidableEq

/-- Immutable configuration of a `CallHandler` after construction:
`rateLim` and `periodLength` fields and the `getBackoff` function
(src/index.ts lines 21-24).  `getBackoff` returns `some d` for a numeric
wait of `d` ms and `none` for JavaScript `undefined`. -/
structure Config (ε : Type) where
  rateLim : Nat
  periodLength : Nat
  getBackoff : ε → Nat → Option Nat

/-- The default backoff function built by the constructor when `backoff`
is a number `k` (src/index.ts lines 36-42):
`attemptNr < k` yields `periodLength * 2 ^ attemptNr`, otherwise
`undefined`. -/
def defaultBackoff (ε : Type) (periodLength k : Nat) : ε → Nat → Option Nat :=
  fun _ attemptNr =>
    if attemptNr < k then some (periodLength * 2 ^ attemptNr) else none

/-- One iteration step of the `do … while (delta < waitTime)` loop inside
`timeout` (src/index.ts lines 10-15).  `elapsedAfter i` is the oracle for
the actual cumulative wall-clock time `Date.now() - startTime` observed
after the `i`-th `setTimeout` callback fires; it is unconstrained, so the
underlying timer may under-fire (or over-fire) arbitrarily.  The function
returns `some (delta, timers)` — the final observed elapsed time and the
number of `setTimeout` calls made — or `none` when the `fuel` bound on
loop iterations is exhausted. -/
def timeoutLoop (elapsedAfter : Nat → Nat) (waitTime : Nat) :
    Nat → Nat → Option (Nat × Nat)
  | 0, _ => none
  | fuel + 1, i =>
    let delta := elapsedAfter i
    if delta < waitTime then timeoutLoop elapsedAfter waitTime fuel (i + 1)
    else some (delta, i + 1)

/-- The module-level `timeout` helper (src/index.ts lines 8-18), restricted
to its delay behaviour: when `waitTime > 0` it runs the compensating loop,
otherwise it resolves at once with zero elapsed time and zero `setTimeout`
calls (`if (waitTime > 0)` guards the whole loop). -/
def timeout (elapsedAfter : Nat → Nat) (waitTime fuel : Nat) :
    Option (Nat × Nat) :=
  if 0 < waitTime then timeoutLoop elapsedAfter waitTime fuel 0
  else some (0, 0)

/-- The `catch` block of `sendReq` (src/index.ts lines 80-94), given the
error `e`, the attempt number, the value returned by
`this.getBackoff(e, attemptNr)`, and the result (trace and outcome) of the
recursive `this.sendReq(request, attemptNr + 1)` wrapped in
`timeout(wait, …)`.  The source tests `if (wait)`: a JavaScript truthiness
test, false both for `undefined` (`none`) and for the number `0`
(`some 0`).  In the truthy case the entire capacity is blocked:
`this.blockRequests(result, this.rateLim)` increments by `rateLim`
synchronously, the backoff wait elapses, the nested retry chain runs to
completion (its settlement settles `result`), and only then does
`blockRequests`'s `finally` decrement by `rateLim` and run `checkQueue`.
In the falsy case `throw e` re-raises the error unchanged. -/
def afterFail {ε α : Type} (cfg : Config ε) (e : ε)
    (backoffResult : Option Nat) (retry : List Ev × Option (Except ε α)) :
    List Ev × Option (Except ε α) :=
  match backoffResult with
  | some (d + 1) =>
    (Ev.inc cfg.rateLim :: Ev.wait (d + 1) ::
      (retry.1 ++ [Ev.dec cfg.rateLim, Ev.drain]), retry.2)
  | some 0 => ([], some (Except.error e))
  | none => ([], some (Except.error e))

/-- `CallHandler.sendReq` (src/index.ts lines 75-95).  The operation is a
family `op : Nat → Attempt ε α` giving the behaviour of its `attemptNr`-th
invocation.  The result is the causally ordered event trace of the call's
chain together with the settled outcome of the returned promise (`none`
when the `fuel` bound on retries is exhausted).

Attempt `attemptNr` mirrors the `try` block: `request()` is evaluated
first (`invoke`), then — only if `request()` returned a promise rather
than throwing — `this.blockRequests(timeout(this.periodLength))` runs,
incrementing the counter by 1 synchronously (`inc 1`) and scheduling the
matching decrement after `periodLength` (`schedRelease`).  A resolution
is returned as is; either failure shape proceeds to `afterFail`. -/
def sendReq {ε α : Type} (cfg : Config ε) (op : Nat → Attempt ε α)
    (attemptNr fuel : Nat) : List Ev × Option (Except ε α) :=
  match fuel with
  | 0 => ([], none)
  | fuel + 1 =>
    match op attemptNr with
    | .ok v =>
      ([Ev.invoke attemptNr, Ev.inc 1, Ev.schedRelease 1 cfg.periodLength],
        some (Except.ok v))
    | .rejects e =>
      let r := afterFail cfg e (cfg.getBackoff e attemptNr)
        (sendReq cfg op (attemptNr + 1) fuel)
      (Ev.invoke attemptNr :: Ev.inc 1 ::
        Ev.schedRelease 1 cfg.periodLength :: r.1, r.2)
    | .throws e =>
      let r := afterFail cfg e (cfg.getBackoff e attemptNr)
        (sendReq cfg op (attemptNr + 1) fuel)
      (Ev.invoke attemptNr :: r.1, r.2)

/-- A pending queue entry (interface `Request`, src/index.ts lines 2-5):
the wrapped operation, with its `passPromise` resolver wiring modelled
separately by `passPromise` below. -/
structure Request (ε α : Type) where
  func : Nat → Attempt ε α

/-- What `CallHandler.call` does with an arriving operation: either the
execution path is invoked now and its future returned, or the queue gains
an entry at its tail. -/
inductive CallAction (ε α : Type) where
  | admitted (result : List Ev × Option (Except ε α))
  | enqueued (newQueue : List (Request ε α))

/-- `CallHandler.call` (src/index.ts lines 49-56): if
`this.requestsLastPeriod < this.rateLim` the call is sent at once via
`sendReq`; otherwise `sendQueue` pushes `{ func, passPromise }` onto the
tail of `this.queue` (JavaScript `Array.prototype.push`). -/
def call {ε α : Type} (cfg : Config ε) (requestsLastPeriod : Nat)
    (queue : List (Request ε α)) (func : Nat → Attempt ε α) (fuel : Nat) :
    CallAction ε α :=
  if requestsLastPeriod < cfg.rateLim then
    CallAction.admitted (sendReq cfg func 0 fuel)
  else
    CallAction.enqueued (queue ++ [Request.mk func])

/-- The resolver wiring installed by `CallHandler.sendQueue`
(src/index.ts lines 59-72): given the settled outcome of the promise later
passed by `checkQueue`, the entry's own promise settles via
`promise.then((val) => res(val)).catch((e) => rej(e))` — the resolution
value and the rejection value are both passed through unchanged.  The
caller-visible rejection channel is `Option ε` (`some e` = rejected with
the error object `e`, `none` = rejected with `undefined`). -/
def passPromise {ε α : Type} : Except ε α → Except (Option ε) α
  | .ok v => .ok v
  | .error e => .error (some e)

/-- The resolver wiring installed by the legacy `RequestHandler.sendQueue`
(src/main.ts lines 75-88): there the handler reads
`promise.then((val) => res(val)).catch(() => rej())` — the rejection
callback ignores the error and calls `rej()` with no argument, so the
entry's promise rejects with `undefined` (`none`). -/
def mainPassPromise {ε α : Type} : Except ε α → Except (Option ε) α
  | .ok v => .ok v
  | .error _ => .error none

/-- The number the `while` condition of `checkQueue` sees added to
`this.requestsLastPeriod` by the time `sendReq(re.func)` returns control
(the synchronous prefix of `sendReq`, src/index.ts lines 75-95).
`checkQueue`'s loop body contains no `await`, so only synchronous
mutations are visible to the next iteration's check:

* `request()` returns a promise (`ok` or `rejects`): the fire-and-forget
  `this.blockRequests(timeout(this.periodLength))` increments by 1 before
  its first `await` suspends — delta 1 (even for `periodLength = 0`, the
  decrement runs in a later microtask, never inside the loop);
* `request()` throws synchronously and `if (wait)` is truthy:
  `this.blockRequests(result, this.rateLim)` increments by `rateLim`
  synchronously — delta `rateLim`;
* `request()` throws synchronously and `if (wait)` is falsy: `throw e`
  only rejects the async function's promise — delta 0. -/
def syncDelta {ε α : Type} (cfg : Config ε) (a : Attempt ε α) : Nat :=
  match a with
  | .ok _ => 1
  | .rejects _ => 1
  | .throws e =>
    match cfg.getBackoff e 0 with
    | some (_ + 1) => cfg.rateLim
    | some 0 => 0
    | none => 0

/-- `CallHandler.checkQueue` (src/index.ts lines 110-116):
`while (this.requestsLastPeriod < this.rateLim && this.queue.length > 0)`
shift the head entry off the queue, run `this.sendReq(re.func)` and hand
its promise to the entry's `passPromise`.  Returns the final counter, the
remaining queue, and the admitted entries each paired with the `sendReq`
result wired to its `passPromise`.  The counter passed to the recursive
call is the fresh value the next iteration's condition reads. -/
def checkQueue {ε α : Type} (cfg : Config ε) (fuel : Nat) :
    Nat → List (Request ε α) →
      Nat × List (Request ε α) ×
        List (Request ε α × (List Ev × Option (Except ε α)))
  | cnt, [] => (cnt, [], [])
  | cnt, r :: rest =>
    if cnt < cfg.rateLim then
      let res := checkQueue cfg fuel (cnt + syncDelta cfg (r.func 0)) rest
      (res.1, res.2.1, (r, sendReq cfg r.func 0 fuel) :: res.2.2)
    else (cnt, r :: rest, [])

/-- Counter value read by `checkQueue`'s condition before the `i`-th pop:
the starting value plus the synchronous deltas of the first `i` admitted
entries. -/
def countAt {ε α : Type} (cfg : Config ε) (cnt : Nat)
    (queue : List (Request ε α)) (i : Nat) : Nat :=
  cnt + ((queue.take i).map (fun r => syncDelta cfg (r.func 0))).sum

/-- Attempt numbers at which the wrapped operation was invoked, in trace
order. -/
def invokedAttempts (tr : List Ev) : List Nat :=
  tr.filterMap fun ev =>
    match ev with
    | Ev.invoke n => some n
    | _ => none

/-- Recognizer for counter-increment events. -/
def isInc : Ev → Bool
  | Ev.inc _ => true
  | _ => false

/-- Recognizer for operation-invocation events. -/
def isInvoke : Ev → Bool
  | Ev.invoke _ => true
  | _ => false

/-- Whether, in a trace, the first counter increment occurs strictly
before the first invocation of the wrapped operation. -/
def incBeforeInvoke (tr : List Ev) : Bool :=
  match tr.findIdx? isInc, tr.findIdx? isInvoke with
  | some i, some j => decide (i < j)
  | _, _ => false

/-- Mutations of `this.requestsLastPeriod`.  In src/index.ts the only two
assignments to the field are the increment and the decrement inside
`blockRequests` (lines 99 and 103), so the counter's entire evolution is
an interleaving of `blockRequests` sessions. -/
inductive CEv where
  | inc (amount : Nat)
  | dec (amount : Nat)
deriving DecidableEq

/-- Counter mutations of one `blockRequests(promise, amount)` invocation
(src/index.ts lines 98-106), given the outcome with which the awaited
promise settles.  The increment runs synchronously on entry, before the
first `await`.  The decrement sits in a `finally` block, so it runs
exactly once whether `await promise` returns normally (`.ok`) or throws
because the promise rejected (`.error`); JavaScript `finally` cannot run
twice, so no double release is possible either. -/
def blockRequests (amount : Nat) (outcome : Except Unit Unit) : List CEv :=
  CEv.inc amount ::
    (match outcome with
     | .ok _ => [CEv.dec amount]
     | .error _ => [CEv.dec amount])

/-- Signed effect of a counter mutation. -/
def cevDelta : CEv → Int
  | .inc a => (a : Int)
  | .dec a => -(a : Int)

/-- `nonnegRun c t` holds when, starting the counter at `c`, every value
it takes while the mutations of `t` are applied one by one stays
non-negative. -/
def nonnegRun : Int → List CEv → Bool
  | _, [] => true
  | c, e :: t =>
    let c1 := c + cevDelta e
    decide (0 ≤ c1) && nonnegRun c1 t

/-- `Shuffle ls t`: the trace `t` is an interleaving of the event lists in
`ls`, preserving each list's internal order.  This is how the
single-threaded event loop serializes the counter mutations of the
concurrently pending `blockRequests` sessions. -/
inductive Shuffle : List (List CEv) → List CEv → Prop where
  | nil (ls : List (List CEv)) : (∀ l, l ∈ ls → l = []) → Shuffle ls []
  | step (ls₁ ls₂ : List (List CEv)) (l : List CEv) (e : CEv) (t : List CEv) :
      Shuffle (ls₁ ++ l :: ls₂) t → Shuffle (ls₁ ++ (e :: l) :: ls₂) (e :: t)

/-- The suffixes of a `blockRequests` session's mutation list that can
remain to be executed at any point: the whole session, just the pending
decrement, or nothing. -/
def SessSuffix (l : List CEv) : Prop :=
  (∃ a, l = [CEv.inc a, CEv.dec a]) ∨ (∃ a, l = [CEv.dec a]) ∨ l = []

/-- Amount a session suffix still holds on the counter: `a` when only the
decrement `dec a` remains, `0` otherwise. -/
def openAmount : List CEv → Nat
  | [CEv.dec a] => a
  | _ => 0

/-- Total amount currently held on the counter by a family of session
suffixes. -/
def openSum (ls : List (List CEv)) : Nat :=
  (ls.map openAmount).sum

/-- Synchronous result of a JavaScript function call: it either returns a
value or throws an exception. -/
inductive SyncRes (ε α : Type) where
  | returned (a : α)
  | thrown (e : ε)

/-- Synchronous behaviour of `CallHandler.call` (src/index.ts lines
49-56).  `sendReq` is declared `async`, so evaluating
`this.sendReq(func)` always returns a promise — an exception raised
inside (including a synchronous throw from `func()` itself) rejects that
promise instead of propagating out.  `sendQueue` returns
`new Promise(executor)` whose executor only builds a closure and pushes
onto an array, and the `Promise` constructor turns an executor throw into
a rejection anyway.  Hence `call` always returns. -/
def callSync {ε α : Type} (cfg : Config ε) (cnt : Nat)
    (queue : List (Request ε α)) (func : Nat → Attempt ε α) (fuel : Nat) :
    SyncRes ε (CallAction ε α) :=
  SyncRes.returned (call cfg cnt queue func fuel)

theorem timeoutLoop_le (elapsedAfter : Nat → Nat) (waitTime : Nat) :
    ∀ fuel i elapsed timers,
      timeoutLoop elapsedAfter waitTime fuel i = some (elapsed, timers) →
      waitTime ≤ elapsed := by
  intro fuel
  induction fuel with
  | zero => intro i elapsed timers h; simp [timeoutLoop] at h
  | succ f ih =>
    intro i elapsed timers h
    simp only [timeoutLoop] at h
    split at h
    · exact ih (i + 1) elapsed timers h
    · rename_i hge
      rw [Option.some_inj, Prod.mk.injEq] at h
      omega

theorem timeoutLoop_total (elapsedAfter : Nat → Nat) (waitTime : Nat)
    (hadv : ∀ j, j + 1 ≤ elapsedAfter j) :
    ∀ fuel i, 1 ≤ fuel → waitTime ≤ i + fuel →
      ∃ r, timeoutLoop elapsedAfter waitTime fuel i = some r := by
  intro fuel
  induction fuel with
  | zero => intro i h; omega
  | succ f ih =>
    intro i _ hle
    simp only [timeoutLoop]
    split
    · rename_i hlt
      have h1 : i + 1 ≤ elapsedAfter i := hadv i
      exact ih (i + 1) (by omega) (by omega)
    · exact ⟨_, rfl⟩

/-- Claim C8: for every requested duration, `timeout` resolves no earlier
than that duration has elapsed — for an arbitrary oracle of actual timer
firing times, so in particular when the underlying timer under-fires, the
loop keeps re-arming until the cumulative elapsed time reaches the
request; when the requested duration is `0` it resolves immediately with
no `setTimeout` scheduled; and when each timer firing advances wall-clock
time, the loop does terminate once enough iterations are allowed. -/
theorem timeout_never_early (elapsedAfter : Nat → Nat) (waitTime fuel : Nat) :
    (∀ elapsed timers,
        timeout elapsedAfter waitTime fuel = some (elapsed, timers) →
        waitTime ≤ elapsed) ∧
    (waitTime = 0 → timeout elapsedAfter waitTime fuel = some (0, 0)) ∧
    ((∀ j, j + 1 ≤ elapsedAfter j) → 1 ≤ fuel → waitTime ≤ fuel →
        ∃ r, timeout elapsedAfter waitTime fuel = some r) := by
  refine ⟨?_, ?_, ?_⟩
  · intro elapsed timers h
    unfold timeout at h
    split at h
    · exact timeoutLoop_le elapsedAfter waitTime fuel 0 elapsed timers h
    · rw [Option.some_inj, Prod.mk.injEq] at h
      omega
  · intro h0
    subst h0
    simp [timeout]
  · intro hadv h1 hle
    unfold timeout
    split
    · exact timeoutLoop_total elapsedAfter waitTime hadv fuel 0 h1 (by omega)
    · exact ⟨_, rfl⟩

theorem timeout_never_early_witness :
    (120 : Nat) ≤ 150 ∧
    timeout (fun j => 50 * (j + 1)) 0 7 = some (0, 0) ∧
    ∃ r, timeout (fun j => 50 * (j + 1)) 120 120 = some r :=
  ⟨(timeout_never_early (fun j => 50 * (j + 1)) 120 5).1 150 3 (by decide),
   (timeout_never_early (fun j => 50 * (j + 1)) 0 7).2.1 rfl,
   (timeout_never_early (fun j => 50 * (j + 1)) 120 120).2.2
     (fun j => Nat.le_mul_of_pos_left (j + 1) (by norm_num)) (by norm_num)
     (by norm_num)⟩

theorem sendReq_error_origin {ε α : Type} (cfg : Config ε)
    (op : Nat → Attempt ε α) :
    ∀ fuel attemptNr tr e,
      sendReq cfg op attemptNr fuel = (tr, some (Except.error e)) →
      ∃ m, attemptNr ≤ m ∧
        (op m = Attempt.rejects e ∨ op m = Attempt.throws e) := by
  intro fuel
  induction fuel with
  | zero =>
    intro n tr e h
    simp only [sendReq, Prod.mk.injEq] at h
    exact absurd h.2 (by simp)
  | succ f ih =>
    intro n tr e h
    simp only [sendReq] at h
    cases hop : op n with
    | ok v =>
      rw [hop] at h
      rw [Prod.mk.injEq] at h
      exact absurd h.2 (by simp)
    | rejects e0 =>
      rw [hop] at h
      rw [Prod.mk.injEq] at h
      have h2 := h.2
      cases hb : cfg.getBackoff e0 n with
      | none =>
        rw [hb] at h2
        simp only [afterFail, Option.some_inj] at h2
        cases h2
        exact ⟨n, le_rfl, Or.inl hop⟩
      | some d =>
        cases d with
        | zero =>
          rw [hb] at h2
          simp only [afterFail, Option.some_inj] at h2
          cases h2
          exact ⟨n, le_rfl, Or.inl hop⟩
        | succ d0 =>
          rw [hb] at h2
          simp only [afterFail] at h2
          obtain ⟨m, hm, hcase⟩ :=
            ih (n + 1) (sendReq cfg op (n + 1) f).1 e (by rw [← h2])
          exact ⟨m, by omega, hcase⟩
    | throws e0 =>
      rw [hop] at h
      rw [Prod.mk.injEq] at h
      have h2 := h.2
      cases hb : cfg.getBackoff e0 n with
      | none =>
        rw [hb] at h2
        simp only [afterFail, Option.some_inj] at h2
        cases h2
        exact ⟨n, le_rfl, Or.inr hop⟩
      | some d =>
        cases d with
        | zero =>
          rw [hb] at h2
          simp only [afterFail, Option.some_inj] at h2
          cases h2
          exact ⟨n, le_rfl, Or.inr hop⟩
        | succ d0 =>
          rw [hb] at h2
          simp only [afterFail] at h2
          obtain ⟨m, hm, hcase⟩ :=
            ih (n + 1) (sendReq cfg op (n + 1) f).1 e (by rw [← h2])
          exact ⟨m, by omega, hcase⟩

theorem sendReq_congr {ε α : Type} (cfg : Config ε)
    (op op1 : Nat → Attempt ε α) :
    ∀ fuel attemptNr, (∀ m, attemptNr ≤ m → op m = op1 m) →
      sendReq cfg op attemptNr fuel = sendReq cfg op1 attemptNr fuel := by
  intro fuel
  induction fuel with
  | zero => intro n _; rfl
  | succ f ih =>
    intro n hagree
    have hn : op n = op1 n := hagree n le_rfl
    have hrec : sendReq cfg op (n + 1) f = sendReq cfg op1 (n + 1) f :=
      ih (n + 1) (fun m hm => hagree m (by omega))
    simp only [sendReq, hn, hrec]

/-- Claim C1: `call` admits immediately (invoking the execution path
`sendReq` and returning its future) exactly when the capacity counter is
strictly below `rateLim`; otherwise it appends a pending entry to the
tail of the queue, whose future settles with exactly the outcome its
`passPromise` is later invoked with.  Exceeding the limit never fails a
call: there is no rate-limit error — any error the returned future can
reject with is one produced by an attempt of the wrapped operation
itself. -/
theorem call_admission_gate {ε α : Type} (cfg : Config ε) (cnt : Nat)
    (queue : List (Request ε α)) (func : Nat → Attempt ε α) (fuel : Nat) :
    (cnt < cfg.rateLim →
        call cfg cnt queue func fuel =
          CallAction.admitted (sendReq cfg func 0 fuel)) ∧
    (cfg.rateLim ≤ cnt →
        call cfg cnt queue func fuel =
          CallAction.enqueued (queue ++ [Request.mk func])) ∧
    (∀ v : α, passPromise (Except.ok v : Except ε α) = Except.ok v) ∧
    (∀ e : ε, passPromise (Except.error e : Except ε α) =
        Except.error (some e)) ∧
    (∀ tr e, sendReq cfg func 0 fuel = (tr, some (Except.error e)) →
        ∃ m, func m = Attempt.rejects e ∨ func m = Attempt.throws e) := by
  refine ⟨?_, ?_, fun v => rfl, fun e => rfl, ?_⟩
  · intro h
    simp [call, h]
  · intro h
    simp [call, Nat.not_lt.mpr h]
  · intro tr e h
    obtain ⟨m, _, hm⟩ := sendReq_error_origin cfg func fuel 0 tr e h
    exact ⟨m, hm⟩

theorem call_admission_gate_witness :
    call (Config.mk 1 5 (fun (_ : Nat) _ => none)) 0 []
        (fun _ => Attempt.rejects (4 : Nat) : Nat → Attempt Nat Nat) 1 =
      CallAction.admitted (sendReq (Config.mk 1 5 (fun (_ : Nat) _ => none))
        (fun _ => Attempt.rejects (4 : Nat) : Nat → Attempt Nat Nat) 0 1) ∧
    call (Config.mk 1 5 (fun (_ : Nat) _ => none)) 1 []
        (fun _ => Attempt.rejects (4 : Nat) : Nat → Attempt Nat Nat) 1 =
      CallAction.enqueued ([] ++
        [Request.mk (fun _ => Attempt.rejects (4 : Nat) : Nat → Attempt Nat Nat)]) ∧
    ∃ m, (fun _ => Attempt.rejects (4 : Nat) : Nat → Attempt Nat Nat) m =
          Attempt.rejects 4 ∨
        (fun _ => Attempt.rejects (4 : Nat) : Nat → Attempt Nat Nat) m =
          Attempt.throws 4 :=
  ⟨(call_admission_gate (Config.mk 1 5 (fun (_ : Nat) _ => none)) 0 []
      (fun _ => Attempt.rejects (4 : Nat) : Nat → Attempt Nat Nat) 1).1
      (by decide),
   (call_admission_gate (Config.mk 1 5 (fun (_ : Nat) _ => none)) 1 []
      (fun _ => Attempt.rejects (4 : Nat) : Nat → Attempt Nat Nat) 1).2.1
      (by decide),
   (call_admission_gate (Config.mk 1 5 (fun (_ : Nat) _ => none)) 1 []
      (fun _ => Attempt.rejects (4 : Nat) : Nat → Attempt Nat Nat) 1).2.2.2.2
      [Ev.invoke 0, Ev.inc 1, Ev.schedRelease 1 5] 4 rfl⟩

/-- Claim C10: `call` never throws synchronously — it always returns a
promise, even when the wrapped operation throws synchronously at
invocation; such a synchronous throw is delivered exactly like a
rejection of the operation's promise, i.e. solely through the settled
outcome of the future `call` returned. -/
theorem call_never_throws_sync {ε α : Type} (cfg : Config ε) (cnt : Nat)
    (queue : List (Request ε α)) (func : Nat → Attempt ε α) (fuel : Nat) :
    callSync cfg cnt queue func fuel =
      SyncRes.returned (call cfg cnt queue func fuel) ∧
    (∀ e, func 0 = Attempt.throws e →
      (sendReq cfg func 0 fuel).2 =
        (sendReq cfg (fun m => if m = 0 then Attempt.rejects e else func m)
          0 fuel).2) := by
  refine ⟨rfl, ?_⟩
  intro e hfunc
  cases fuel with
  | zero => rfl
  | succ f =>
    have hrec : sendReq cfg func 1 f =
        sendReq cfg (fun m => if m = 0 then Attempt.rejects e else func m) 1 f :=
      sendReq_congr cfg func _ f 1 (fun m hm => by
        have : m ≠ 0 := by omega
        simp [this])
    simp only [sendReq, hfunc, hrec]
    norm_num

theorem call_never_throws_sync_witness :
    callSync (Config.mk 1 5 (fun (_ : Nat) _ => none)) 0 []
        (fun _ => Attempt.throws (3 : Nat) : Nat → Attempt Nat Nat) 1 =
      SyncRes.returned (call (Config.mk 1 5 (fun (_ : Nat) _ => none)) 0 []
        (fun _ => Attempt.throws (3 : Nat) : Nat → Attempt Nat Nat) 1) ∧
    (sendReq (Config.mk 1 5 (fun (_ : Nat) _ => none))
        (fun _ => Attempt.throws (3 : Nat) : Nat → Attempt Nat Nat) 0 1).2 =
      (sendReq (Config.mk 1 5 (fun (_ : Nat) _ => none))
        (fun m => if m = 0 then Attempt.rejects 3
          else Attempt.throws (3 : Nat)) 0 1).2 :=
  ⟨(call_never_throws_sync (Config.mk 1 5 (fun (_ : Nat) _ => none)) 0 []
      (fun _ => Attempt.throws (3 : Nat) : Nat → Attempt Nat Nat) 1).1,
   (call_never_throws_sync (Config.mk 1 5 (fun (_ : Nat) _ => none)) 0 []
      (fun _ => Attempt.throws (3 : Nat) : Nat → Attempt Nat Nat) 1).2 3 rfl⟩

/-- Claim C5 (code bug seen at a failing input): with `periodLength = 0`
and the default backoff (`maxRetries = 3`), the backoff policy returns
the duration `0` for the first failure, yet `sendReq` makes exactly one
attempt and propagates the first error immediately — the source's
`if (wait)` treats the numeric wait `0` like `undefined`, contradicting
its own comment that only `undefined` means "no more retries" and the
README, which says a numeric return is a wait and only `undefined`
stops. -/
theorem zero_wait_stops_retries :
    defaultBackoff Nat 0 3 7 0 = some 0 ∧
    sendReq (α := Nat) (Config.mk 1 0 (defaultBackoff Nat 0 3))
        (fun _ => Attempt.rejects 7) 0 10 =
      ([Ev.invoke 0, Ev.inc 1, Ev.schedRelease 1 0], some (Except.error 7)) ∧
    invokedAttempts (sendReq (α := Nat) (Config.mk 1 0 (defaultBackoff Nat 0 3))
        (fun _ => Attempt.rejects 7) 0 10).1 = [0] :=
  ⟨rfl, rfl, rfl⟩

/-- Claim C7 (code bug seen at a failing input): the core handler's queue
wiring (`CallHandler.sendQueue`, src/index.ts) passes a rejection through
with the exact error object, but the legacy `RequestHandler.sendQueue`
(src/main.ts) rejects the caller's future with `undefined`, dropping the
final attempt's error object entirely. -/
theorem main_sendQueue_swallows_error :
    passPromise (Except.error 7 : Except Nat Nat) = Except.error (some 7) ∧
    mainPassPromise (Except.error 7 : Except Nat Nat) = Except.error none ∧
    (Except.error none : Except (Option Nat) Nat) ≠ Except.error (some 7) :=
  ⟨rfl, rfl, by simp⟩

theorem openAmount_le_openSum (ls : List (List CEv)) (a : Nat)
    (hmem : [CEv.dec a] ∈ ls) : a ≤ openSum ls := by
  have h1 : openAmount [CEv.dec a] ∈ ls.map openAmount :=
    List.mem_map_of_mem _ hmem
  have h2 := List.single_le_sum (fun (x : Nat) _ => Nat.zero_le x) _ h1
  simpa [openAmount, openSum] using h2

/-- Claim C3 (amended: the backoff duration must be nonzero, because the
source's `if (wait)` treats a returned `0` like `undefined` — see the
counterexample theorem): when an attempt fails and the backoff policy
returns a nonzero duration `d`, the entire capacity (`amount = rateLim`)
is consumed by a single increment rather than one slot; the matching
decrement of `rateLim` and the queue drain fire only after the complete
trace of the nested retry chain, whose outcome becomes the call's
outcome; while that containment session is open the counter is at least
`rateLim`, and every `call` arriving with the counter at least `rateLim`
is enqueued rather than admitted. -/
theorem containment_blocks_admissions {ε α : Type} (cfg : Config ε)
    (op : Nat → Attempt ε α) (n fuel : Nat) (e : ε) (d : Nat)
    (hfail : op n = Attempt.rejects e ∨ op n = Attempt.throws e)
    (hback : cfg.getBackoff e n = some d) (hd : d ≠ 0) :
    (∃ pre,
      sendReq cfg op n (fuel + 1) =
        (pre ++ Ev.inc cfg.rateLim :: Ev.wait d ::
          ((sendReq cfg op (n + 1) fuel).1 ++ [Ev.dec cfg.rateLim, Ev.drain]),
         (sendReq cfg op (n + 1) fuel).2)) ∧
    (∀ ls, [CEv.dec cfg.rateLim] ∈ ls → cfg.rateLim ≤ openSum ls) ∧
    (∀ (cnt : Nat) (q : List (Request ε α)) (g : Nat → Attempt ε α)
        (f2 : Nat), cfg.rateLim ≤ cnt →
      call cfg cnt q g f2 = CallAction.enqueued (q ++ [Request.mk g])) := by
  obtain ⟨d0, rfl⟩ : ∃ d0, d = d0 + 1 := ⟨d - 1, by omega⟩
  refine ⟨?_, fun ls hmem => openAmount_le_openSum ls cfg.rateLim hmem, ?_⟩
  · rcases hfail with hop | hop
    · exact ⟨[Ev.invoke n, Ev.inc 1, Ev.schedRelease 1 cfg.periodLength],
        by simp [sendReq, hop, hback, afterFail]⟩
    · exact ⟨[Ev.invoke n], by simp [sendReq, hop, hback, afterFail]⟩
  · intro cnt q g f2 hcnt
    simp [call, Nat.not_lt.mpr hcnt]

def cfgC3 : Config Nat := Config.mk 2 5 (fun _ _ => some 4)

def opC3 : Nat → Attempt Nat Nat :=
  fun n => if n = 0 then Attempt.rejects 1 else Attempt.ok 9

theorem containment_blocks_admissions_witness :
    (∃ pre,
      sendReq cfgC3 opC3 0 2 =
        (pre ++ Ev.inc 2 :: Ev.wait 4 ::
          ((sendReq cfgC3 opC3 1 1).1 ++ [Ev.dec 2, Ev.drain]),
         (sendReq cfgC3 opC3 1 1).2)) ∧
    2 ≤ openSum [[CEv.dec 2]] ∧
    call cfgC3 2 [] opC3 3 = CallAction.enqueued ([] ++ [Request.mk opC3]) :=
  ⟨(containment_blocks_admissions cfgC3 opC3 0 1 1 4 (Or.inl rfl) rfl
      (by norm_num)).1,
   (containment_blocks_admissions cfgC3 opC3 0 1 1 4 (Or.inl rfl) rfl
      (by norm_num)).2.1 [[CEv.dec 2]] (by simp [cfgC3]),
   (containment_blocks_admissions cfgC3 opC3 0 1 1 4 (Or.inl rfl) rfl
      (by norm_num)).2.2 2 [] opC3 3 (by simp [cfgC3])⟩

/-- Claim C3 counterexample to the claim as stated: here the backoff
policy does return a duration (namely `0`) for the failed attempt, yet
the capacity is not consumed — the trace contains no increment of
`rateLim = 2` at all — no retry is pending, and the call fails
immediately, so "whenever the policy returns a duration the entire
capacity is consumed and calls are delayed" is false at this input. -/
theorem containment_zero_wait_cex :
    (Config.mk 2 7 (fun (_ : Nat) _ => some 0)).getBackoff 1 0 = some 0 ∧
    sendReq (α := Nat) (Config.mk 2 7 (fun (_ : Nat) _ => some 0))
        (fun _ => Attempt.rejects 1) 0 4 =
      ([Ev.invoke 0, Ev.inc 1, Ev.schedRelease 1 7], some (Except.error 1)) ∧
    Ev.inc 2 ∉ (sendReq (α := Nat) (Config.mk 2 7 (fun (_ : Nat) _ => some 0))
        (fun _ => Attempt.rejects 1) 0 4).1 :=
  ⟨rfl, rfl, by decide⟩

/-- Claim C9 counterexample to the claim as stated: on an admission the
counter increment does not precede the invocation of the wrapped
operation — `sendReq` evaluates `request()` first and only then calls
`blockRequests`, so in the admission trace the first increment event
comes strictly after the first invocation event. -/
theorem increment_after_invoke_cex :
    sendReq (α := Nat) (Config.mk 3 5 (fun (_ : Nat) _ => none))
        (fun _ => Attempt.ok 0) 0 1 =
      ([Ev.invoke 0, Ev.inc 1, Ev.schedRelease 1 5], some (Except.ok 0)) ∧
    incBeforeInvoke [Ev.invoke 0, Ev.inc 1, Ev.schedRelease 1 5] = false :=
  ⟨rfl, by decide⟩

theorem invokedAttempts_append (s t : List Ev) :
    invokedAttempts (s ++ t) = invokedAttempts s ++ invokedAttempts t := by
  simp [invokedAttempts]

theorem invokedAttempts_nil : invokedAttempts [] = [] := rfl

theorem invokedAttempts_invoke (n : Nat) (t : List Ev) :
    invokedAttempts (Ev.invoke n :: t) = n :: invokedAttempts t := rfl

theorem invokedAttempts_inc (a : Nat) (t : List Ev) :
    invokedAttempts (Ev.inc a :: t) = invokedAttempts t := rfl

theorem invokedAttempts_sched (a d : Nat) (t : List Ev) :
    invokedAttempts (Ev.schedRelease a d :: t) = invokedAttempts t := rfl

theorem invokedAttempts_wait (d : Nat) (t : List Ev) :
    invokedAttempts (Ev.wait d :: t) = invokedAttempts t := rfl

theorem invokedAttempts_dec (a : Nat) (t : List Ev) :
    invokedAttempts (Ev.dec a :: t) = invokedAttempts t := rfl

theorem invokedAttempts_drain (t : List Ev) :
    invokedAttempts (Ev.drain :: t) = invokedAttempts t := rfl

theorem sendReq_retry_eq {ε α : Type} (cfg : Config ε)
    (op : Nat → Attempt ε α) (n fuel : Nat) (e : ε) (d0 : Nat)
    (hb : cfg.getBackoff e n = some (d0 + 1)) :
    (op n = Attempt.rejects e →
      sendReq cfg op n (fuel + 1) =
        (Ev.invoke n :: Ev.inc 1 :: Ev.schedRelease 1 cfg.periodLength ::
          Ev.inc cfg.rateLim :: Ev.wait (d0 + 1) ::
            ((sendReq cfg op (n + 1) fuel).1 ++ [Ev.dec cfg.rateLim, Ev.drain]),
         (sendReq cfg op (n + 1) fuel).2)) ∧
    (op n = Attempt.throws e →
      sendReq cfg op n (fuel + 1) =
        (Ev.invoke n ::
          Ev.inc cfg.rateLim :: Ev.wait (d0 + 1) ::
            ((sendReq cfg op (n + 1) fuel).1 ++ [Ev.dec cfg.rateLim, Ev.drain]),
         (sendReq cfg op (n + 1) fuel).2)) := by
  constructor <;> intro hop <;>
    simp only [sendReq, hop, hb, afterFail]

theorem sendReq_stop_eq {ε α : Type} (cfg : Config ε)
    (op : Nat → Attempt ε α) (n fuel : Nat) (e : ε)
    (hb : cfg.getBackoff e n = none ∨ cfg.getBackoff e n = some 0) :
    (op n = Attempt.rejects e →
      sendReq cfg op n (fuel + 1) =
        ([Ev.invoke n, Ev.inc 1, Ev.schedRelease 1 cfg.periodLength],
         some (Except.error e))) ∧
    (op n = Attempt.throws e →
      sendReq cfg op n (fuel + 1) = ([Ev.invoke n], some (Except.error e))) := by
  constructor <;> intro hop <;> rcases hb with hb | hb <;>
    simp only [sendReq, hop, hb, afterFail]

theorem sendReq_default_exhaust {ε α : Type} (R P k : Nat)
    (op : Nat → Attempt ε α) (err : Nat → ε)
    (hfail : ∀ m, op m = Attempt.rejects (err m) ∨ op m = Attempt.throws (err m))
    (hP : 0 < P) :
    ∀ i n, n + i = k →
      invokedAttempts
          (sendReq (Config.mk R P (defaultBackoff ε P k)) op n (i + 1)).1 =
        List.range' n (i + 1) ∧
      (sendReq (Config.mk R P (defaultBackoff ε P k)) op n (i + 1)).2 =
        some (Except.error (err k)) := by
  intro i
  induction i with
  | zero =>
    intro n hn
    have hnk : n = k := by omega
    subst hnk
    have hb : defaultBackoff ε P n (err n) n = none := by
      simp only [defaultBackoff]
      rw [if_neg (by omega)]
    rcases hfail n with hop | hop
    · rw [(sendReq_stop_eq (Config.mk R P (defaultBackoff ε P n)) op n 0
        (err n) (Or.inl hb)).1 hop]
      exact ⟨rfl, rfl⟩
    · rw [(sendReq_stop_eq (Config.mk R P (defaultBackoff ε P n)) op n 0
        (err n) (Or.inl hb)).2 hop]
      exact ⟨rfl, rfl⟩
  | succ j ih =>
    intro n hn
    have hlt : n < k := by omega
    have hpos : 0 < P * 2 ^ n := Nat.mul_pos hP (pow_pos (by norm_num) n)
    obtain ⟨d0, hd0⟩ : ∃ d0, P * 2 ^ n = d0 + 1 := ⟨P * 2 ^ n - 1, by omega⟩
    have hb : defaultBackoff ε P k (err n) n = some (d0 + 1) := by
      simp only [defaultBackoff]
      rw [if_pos hlt, hd0]
    obtain ⟨ih1, ih2⟩ := ih (n + 1) (by omega)
    have hrange : List.range' n (j + 1 + 1) = n :: List.range' (n + 1) (j + 1) :=
      rfl
    rcases hfail n with hop | hop
    · rw [(sendReq_retry_eq (Config.mk R P (defaultBackoff ε P k)) op n (j + 1)
        (err n) d0 hb).1 hop]
      refine ⟨?_, ih2⟩
      rw [invokedAttempts_invoke, invokedAttempts_inc, invokedAttempts_sched,
        invokedAttempts_inc, invokedAttempts_wait, invokedAttempts_append,
        ih1, hrange]
      simp [invokedAttempts]
    · rw [(sendReq_retry_eq (Config.mk R P (defaultBackoff ε P k)) op n (j + 1)
        (err n) d0 hb).2 hop]
      refine ⟨?_, ih2⟩
      rw [invokedAttempts_invoke, invokedAttempts_inc, invokedAttempts_wait,
        invokedAttempts_append, ih1, hrange]
      simp [invokedAttempts]

/-- Claim C4 (amended: the claimed call count `k + 1` additionally needs
`periodLength > 0`; with `periodLength = 0` every default wait is `0`,
which the source's `if (wait)` treats as "stop", so only one attempt is
made — see the counterexample): with an integer `backoffSpec = k`, the
derived policy returns `periodLength * 2 ^ attemptIndex` below `k` and
`undefined` from `k` on; when `periodLength > 0`, an operation failing on
every attempt is invoked exactly `k + 1` times (attempts `0, …, k`) and
the final attempt's error is the call's outcome; with `k = 0`, exactly
one attempt is made and its error propagates immediately, for any
`periodLength`. -/
theorem default_backoff_spec {ε α : Type} (R P k : Nat)
    (op : Nat → Attempt ε α) (err : Nat → ε)
    (hfail : ∀ m, op m = Attempt.rejects (err m) ∨ op m = Attempt.throws (err m)) :
    (∀ (e : ε) n, n < k → defaultBackoff ε P k e n = some (P * 2 ^ n)) ∧
    (∀ (e : ε) n, k ≤ n → defaultBackoff ε P k e n = none) ∧
    (0 < P →
      invokedAttempts
          (sendReq (Config.mk R P (defaultBackoff ε P k)) op 0 (k + 1)).1 =
        List.range (k + 1) ∧
      (sendReq (Config.mk R P (defaultBackoff ε P k)) op 0 (k + 1)).2 =
        some (Except.error (err k))) ∧
    (k = 0 →
      invokedAttempts
          (sendReq (Config.mk R P (defaultBackoff ε P k)) op 0 1).1 = [0] ∧
      (sendReq (Config.mk R P (defaultBackoff ε P k)) op 0 1).2 =
        some (Except.error (err 0))) := by
  refine ⟨?_, ?_, ?_, ?_⟩
  · intro e n hlt
    simp [defaultBackoff, hlt]
  · intro e n hge
    simp [defaultBackoff, Nat.not_lt.mpr hge]
  · intro hP
    obtain ⟨h1, h2⟩ := sendReq_default_exhaust R P k op err hfail hP k 0 (by omega)
    refine ⟨?_, h2⟩
    rw [h1, List.range_eq_range']
  · intro hk
    subst hk
    have hb : defaultBackoff ε P 0 (err 0) 0 = none := by simp [defaultBackoff]
    rcases hfail 0 with hop | hop <;>
      simp [sendReq, hop, hb, afterFail, invokedAttempts]

def opC4 : Nat → Attempt Nat Nat := fun m => Attempt.rejects m

theorem default_backoff_spec_witness :
    defaultBackoff Nat 2 2 9 1 = some (2 * 2 ^ 1) ∧
    defaultBackoff Nat 2 2 9 2 = none ∧
    invokedAttempts
        (sendReq (Config.mk 3 2 (defaultBackoff Nat 2 2)) opC4 0 3).1 =
      List.range 3 ∧
    (sendReq (Config.mk 3 2 (defaultBackoff Nat 2 2)) opC4 0 3).2 =
      some (Except.error 2) :=
  ⟨(default_backoff_spec 3 2 2 opC4 (fun m => m)
      (fun m => Or.inl rfl)).1 9 1 (by norm_num),
   (default_backoff_spec 3 2 2 opC4 (fun m => m)
      (fun m => Or.inl rfl)).2.1 9 2 (by norm_num),
   ((default_backoff_spec 3 2 2 opC4 (fun m => m)
      (fun m => Or.inl rfl)).2.2.1 (by norm_num)).1,
   ((default_backoff_spec 3 2 2 opC4 (fun m => m)
      (fun m => Or.inl rfl)).2.2.1 (by norm_num)).2⟩

/-- Claim C4 counterexample to the claim as stated: with
`periodLength = 0` and integer `backoffSpec = 1`, the derived policy does
return a duration (`0 * 2 ^ 0 = 0`) for the first failure, but an
always-failing operation is invoked once, not `k + 1 = 2` times — the
first error propagates with no retry. -/
theorem default_backoff_periodzero_cex :
    defaultBackoff Nat 0 1 5 0 = some 0 ∧
    invokedAttempts (sendReq (α := Nat) (Config.mk 3 0 (defaultBackoff Nat 0 1))
        (fun _ => Attempt.rejects 5) 0 2).1 = [0] ∧
    invokedAttempts (sendReq (α := Nat) (Config.mk 3 0 (defaultBackoff Nat 0 1))
        (fun _ => Attempt.rejects 5) 0 2).1 ≠ List.range 2 ∧
    (sendReq (α := Nat) (Config.mk 3 0 (defaultBackoff Nat 0 1))
        (fun _ => Attempt.rejects 5) 0 2).2 = some (Except.error 5) :=
  ⟨rfl, rfl, by decide, rfl⟩

theorem countAt_zero {ε α : Type} (cfg : Config ε) (cnt : Nat)
    (queue : List (Request ε α)) : countAt cfg cnt queue 0 = cnt := by
  simp [countAt]

theorem countAt_cons {ε α : Type} (cfg : Config ε) (cnt : Nat)
    (r : Request ε α) (rest : List (Request ε α)) (i : Nat) :
    countAt cfg cnt (r :: rest) (i + 1) =
      countAt cfg (cnt + syncDelta cfg (r.func 0)) rest i := by
  simp only [countAt, List.take_succ_cons, List.map_cons, List.sum_cons]
  omega

/-- Claim C6: queue draining pops entries one at a time from the head
while the counter is below `rateLim` and the queue is non-empty — the
admitted entries are exactly a prefix of the queue in FIFO arrival order
and the remaining queue is the matching suffix, so no entry is
double-popped or skipped; the counter is re-read before each pop, each
admission's synchronous increment being visible to the next check; the
loop stops exactly when the queue empties or the fresh counter reaches
`rateLim`; and each admitted entry's `passPromise` is wired to the
outcome of its own `sendReq` execution. -/
theorem drain_fifo_fresh_check {ε α : Type} (cfg : Config ε) (fuel : Nat) :
    ∀ (queue : List (Request ε α)) (cnt : Nat),
    ∃ j, j ≤ queue.length ∧
      ((checkQueue cfg fuel cnt queue).2.2.map Prod.fst = queue.take j) ∧
      ((checkQueue cfg fuel cnt queue).2.1 = queue.drop j) ∧
      ((checkQueue cfg fuel cnt queue).1 = countAt cfg cnt queue j) ∧
      (∀ i, i < j → countAt cfg cnt queue i < cfg.rateLim) ∧
      (j = queue.length ∨ cfg.rateLim ≤ countAt cfg cnt queue j) ∧
      (∀ p ∈ (checkQueue cfg fuel cnt queue).2.2,
        p.2 = sendReq cfg p.1.func 0 fuel) := by
  intro queue
  induction queue with
  | nil =>
    intro cnt
    exact ⟨0, by simp, by simp [checkQueue], by simp [checkQueue],
      by simp [checkQueue, countAt], by omega, Or.inl rfl,
      by simp [checkQueue]⟩
  | cons r rest ih =>
    intro cnt
    by_cases hc : cnt < cfg.rateLim
    · obtain ⟨j, hlen, hmap, hdrop, hcnt, hfresh, hstop, hwire⟩ :=
        ih (cnt + syncDelta cfg (r.func 0))
      have hstep : checkQueue cfg fuel cnt (r :: rest) =
          ((checkQueue cfg fuel (cnt + syncDelta cfg (r.func 0)) rest).1,
           (checkQueue cfg fuel (cnt + syncDelta cfg (r.func 0)) rest).2.1,
           (r, sendReq cfg r.func 0 fuel) ::
             (checkQueue cfg fuel (cnt + syncDelta cfg (r.func 0)) rest).2.2) := by
        simp [checkQueue, hc]
      refine ⟨j + 1, by simp; omega, ?_, ?_, ?_, ?_, ?_, ?_⟩
      · rw [hstep]
        simp [hmap, List.take_succ_cons]
      · rw [hstep]
        simpa using hdrop
      · rw [hstep, countAt_cons]
        exact hcnt
      · intro i hi
        cases i with
        | zero => simpa [countAt_zero] using hc
        | succ i0 =>
          rw [countAt_cons]
          exact hfresh i0 (by omega)
      · rcases hstop with h | h
        · left
          simp [h]
        · right
          rw [countAt_cons]
          exact h
      · intro p hp
        rw [hstep] at hp
        rcases List.mem_cons.mp hp with h | h
        · subst h
          rfl
        · exact hwire p h
    · have hstep : checkQueue cfg fuel cnt (r :: rest) = (cnt, r :: rest, []) := by
        simp [checkQueue, hc]
      exact ⟨0, by omega, by rw [hstep]; simp, by rw [hstep]; simp,
        by rw [hstep, countAt_zero],
        by omega, Or.inr (by rw [countAt_zero]; omega), by rw [hstep]; simp⟩

theorem sendReq_invoke_inc_one {ε α : Type} (cfg : Config ε)
    (op : Nat → Attempt ε α) :
    ∀ fuel n k, Ev.invoke k ∈ (sendReq cfg op n fuel).1 →
      (∀ e, op k ≠ Attempt.throws e) →
      ∃ pre rest, (sendReq cfg op n fuel).1 =
        pre ++ Ev.invoke k :: Ev.inc 1 ::
          Ev.schedRelease 1 cfg.periodLength :: rest := by
  intro fuel
  induction fuel with
  | zero =>
    intro n k hmem _
    simp [sendReq] at hmem
  | succ f ih =>
    intro n k hmem hnothrow
    cases hop : op n with
    | ok v =>
      have htr : (sendReq cfg op n (f + 1)).1 =
          [Ev.invoke n, Ev.inc 1, Ev.schedRelease 1 cfg.periodLength] := by
        simp [sendReq, hop]
      rw [htr] at hmem
      simp at hmem
      subst hmem
      exact ⟨[], [], by rw [htr]; rfl⟩
    | rejects e =>
      cases hb : cfg.getBackoff e n with
      | none =>
        have htr := (sendReq_stop_eq cfg op n f e (Or.inl hb)).1 hop
        rw [htr] at hmem ⊢
        simp at hmem
        subst hmem
        exact ⟨[], [], rfl⟩
      | some d =>
        cases d with
        | zero =>
          have htr := (sendReq_stop_eq cfg op n f e (Or.inr hb)).1 hop
          rw [htr] at hmem ⊢
          simp at hmem
          subst hmem
          exact ⟨[], [], rfl⟩
        | succ d0 =>
          have htr := (sendReq_retry_eq cfg op n f e d0 hb).1 hop
          have htr1 : (sendReq cfg op n (f + 1)).1 =
              Ev.invoke n :: Ev.inc 1 :: Ev.schedRelease 1 cfg.periodLength ::
                Ev.inc cfg.rateLim :: Ev.wait (d0 + 1) ::
                  ((sendReq cfg op (n + 1) f).1 ++
                    [Ev.dec cfg.rateLim, Ev.drain]) := by
            rw [htr]
          rw [htr1] at hmem ⊢
          simp only [List.mem_cons, List.mem_append] at hmem
          rcases hmem with h | h | h | h | h | h | h
          · simp only [Ev.invoke.injEq] at h
            subst h
            exact ⟨[], _, rfl⟩
          · exact absurd h (by simp)
          · exact absurd h (by simp)
          · exact absurd h (by simp)
          · exact absurd h (by simp)
          · obtain ⟨pre, rest, heq⟩ := ih (n + 1) k h hnothrow
            refine ⟨Ev.invoke n :: Ev.inc 1 :: Ev.schedRelease 1 cfg.periodLength ::
              Ev.inc cfg.rateLim :: Ev.wait (d0 + 1) :: pre,
              rest ++ [Ev.dec cfg.rateLim, Ev.drain], ?_⟩
            rw [heq]
            simp
          · exact absurd h (by simp)
    | throws e =>
      cases hb : cfg.getBackoff e n with
      | none =>
        have htr := (sendReq_stop_eq cfg op n f e (Or.inl hb)).2 hop
        rw [htr] at hmem
        simp at hmem
        subst hmem
        exact absurd hop (hnothrow e)
      | some d =>
        cases d with
        | zero =>
          have htr := (sendReq_stop_eq cfg op n f e (Or.inr hb)).2 hop
          rw [htr] at hmem
          simp at hmem
          subst hmem
          exact absurd hop (hnothrow e)
        | succ d0 =>
          have htr := (sendReq_retry_eq cfg op n f e d0 hb).2 hop
          have htr1 : (sendReq cfg op n (f + 1)).1 =
              Ev.invoke n ::
                Ev.inc cfg.rateLim :: Ev.wait (d0 + 1) ::
                  ((sendReq cfg op (n + 1) f).1 ++
                    [Ev.dec cfg.rateLim, Ev.drain]) := by
            rw [htr]
          rw [htr1] at hmem ⊢
          simp only [List.mem_cons, List.mem_append] at hmem
          rcases hmem with h | h | h | h | h
          · simp only [Ev.invoke.injEq] at h
            subst h
            exact absurd hop (hnothrow e)
          · exact absurd h (by simp)
          · exact absurd h (by simp)
          · obtain ⟨pre, rest, heq⟩ := ih (n + 1) k h hnothrow
            refine ⟨Ev.invoke n :: Ev.inc cfg.rateLim :: Ev.wait (d0 + 1) :: pre,
              rest ++ [Ev.dec cfg.rateLim, Ev.drain], ?_⟩
            rw [heq]
            simp
          · exact absurd h (by simp)

theorem sendReq_invoke_inc_rateLim {ε α : Type} (cfg : Config ε)
    (op : Nat → Attempt ε α) :
    ∀ fuel n k e d0, Ev.invoke k ∈ (sendReq cfg op n fuel).1 →
      op k = Attempt.throws e → cfg.getBackoff e k = some (d0 + 1) →
      ∃ pre rest, (sendReq cfg op n fuel).1 =
        pre ++ Ev.invoke k :: Ev.inc cfg.rateLim :: Ev.wait (d0 + 1) :: rest := by
  intro fuel
  induction fuel with
  | zero =>
    intro n k e d0 hmem _ _
    simp [sendReq] at hmem
  | succ f ih =>
    intro n k e d0 hmem hthrow hb
    cases hop : op n with
    | ok v =>
      have htr : (sendReq cfg op n (f + 1)).1 =
          [Ev.invoke n, Ev.inc 1, Ev.schedRelease 1 cfg.periodLength] := by
        simp [sendReq, hop]
      rw [htr] at hmem
      simp at hmem
      subst hmem
      rw [hop] at hthrow
      exact absurd hthrow (by simp)
    | rejects e0 =>
      cases hb0 : cfg.getBackoff e0 n with
      | none =>
        have htr := (sendReq_stop_eq cfg op n f e0 (Or.inl hb0)).1 hop
        have htr1 : (sendReq cfg op n (f + 1)).1 =
            [Ev.invoke n, Ev.inc 1, Ev.schedRelease 1 cfg.periodLength] := by
          rw [htr]
        rw [htr1] at hmem
        simp at hmem
        subst hmem
        rw [hop] at hthrow
        exact absurd hthrow (by simp)
      | some d =>
        cases d with
        | zero =>
          have htr := (sendReq_stop_eq cfg op n f e0 (Or.inr hb0)).1 hop
          have htr1 : (sendReq cfg op n (f + 1)).1 =
              [Ev.invoke n, Ev.inc 1, Ev.schedRelease 1 cfg.periodLength] := by
            rw [htr]
          rw [htr1] at hmem
          simp at hmem
          subst hmem
          rw [hop] at hthrow
          exact absurd hthrow (by simp)
        | succ d1 =>
          have htr := (sendReq_retry_eq cfg op n f e0 d1 hb0).1 hop
          have htr1 : (sendReq cfg op n (f + 1)).1 =
              Ev.invoke n :: Ev.inc 1 :: Ev.schedRelease 1 cfg.periodLength ::
                Ev.inc cfg.rateLim :: Ev.wait (d1 + 1) ::
                  ((sendReq cfg op (n + 1) f).1 ++
                    [Ev.dec cfg.rateLim, Ev.drain]) := by
            rw [htr]
          rw [htr1] at hmem ⊢
          simp only [List.mem_cons, List.mem_append] at hmem
          rcases hmem with h | h | h | h | h | h | h
          · simp only [Ev.invoke.injEq] at h
            subst h
            rw [hop] at hthrow
            exact absurd hthrow (by simp)
          · exact absurd h (by simp)
          · exact absurd h (by simp)
          · exact absurd h (by simp)
          · exact absurd h (by simp)
          · obtain ⟨pre, rest, heq⟩ := ih (n + 1) k e d0 h hthrow hb
            refine ⟨Ev.invoke n :: Ev.inc 1 :: Ev.schedRelease 1 cfg.periodLength ::
              Ev.inc cfg.rateLim :: Ev.wait (d1 + 1) :: pre,
              rest ++ [Ev.dec cfg.rateLim, Ev.drain], ?_⟩
            rw [heq]
            simp
          · exact absurd h (by simp)
    | throws e0 =>
      cases hb0 : cfg.getBackoff e0 n with
      | none =>
        have htr := (sendReq_stop_eq cfg op n f e0 (Or.inl hb0)).2 hop
        have htr1 : (sendReq cfg op n (f + 1)).1 = [Ev.invoke n] := by
          rw [htr]
        rw [htr1] at hmem
        simp at hmem
        subst hmem
        rw [hop] at hthrow
        injection hthrow with he
        subst he
        rw [hb0] at hb
        exact absurd hb (by simp)
      | some d =>
        cases d with
        | zero =>
          have htr := (sendReq_stop_eq cfg op n f e0 (Or.inr hb0)).2 hop
          have htr1 : (sendReq cfg op n (f + 1)).1 = [Ev.invoke n] := by
            rw [htr]
          rw [htr1] at hmem
          simp at hmem
          subst hmem
          rw [hop] at hthrow
          injection hthrow with he
          subst he
          rw [hb0] at hb
          simp at hb
        | succ d1 =>
          have htr := (sendReq_retry_eq cfg op n f e0 d1 hb0).2 hop
          have htr1 : (sendReq cfg op n (f + 1)).1 =
              Ev.invoke n ::
                Ev.inc cfg.rateLim :: Ev.wait (d1 + 1) ::
                  ((sendReq cfg op (n + 1) f).1 ++
                    [Ev.dec cfg.rateLim, Ev.drain]) := by
            rw [htr]
          rw [htr1] at hmem ⊢
          simp only [List.mem_cons, List.mem_append] at hmem
          rcases hmem with h | h | h | h | h
          · simp only [Ev.invoke.injEq] at h
            subst h
            rw [hop] at hthrow
            injection hthrow with he
            subst he
            rw [hb0] at hb
            injection hb with hd
            obtain rfl : d0 = d1 := by omega
            exact ⟨[], _, rfl⟩
          · exact absurd h (by simp)
          · exact absurd h (by simp)
          · obtain ⟨pre, rest, heq⟩ := ih (n + 1) k e d0 h hthrow hb
            refine ⟨Ev.invoke n :: Ev.inc cfg.rateLim :: Ev.wait (d1 + 1) :: pre,
              rest ++ [Ev.dec cfg.rateLim, Ev.drain], ?_⟩
            rw [heq]
            simp
          · exact absurd h (by simp)

theorem sendReq_invoke_no_inc {ε α : Type} (cfg : Config ε)
    (op : Nat → Attempt ε α) :
    ∀ fuel n k e, Ev.invoke k ∈ (sendReq cfg op n fuel).1 →
      op k = Attempt.throws e →
      (cfg.getBackoff e k = none ∨ cfg.getBackoff e k = some 0) →
      ∃ pre rest, (sendReq cfg op n fuel).1 = pre ++ Ev.invoke k :: rest ∧
        ∀ ev ∈ rest, ev = Ev.dec cfg.rateLim ∨ ev = Ev.drain := by
  intro fuel
  induction fuel with
  | zero =>
    intro n k e hmem _ _
    simp [sendReq] at hmem
  | succ f ih =>
    intro n k e hmem hthrow hb
    cases hop : op n with
    | ok v =>
      have htr : (sendReq cfg op n (f + 1)).1 =
          [Ev.invoke n, Ev.inc 1, Ev.schedRelease 1 cfg.periodLength] := by
        simp [sendReq, hop]
      rw [htr] at hmem
      simp at hmem
      subst hmem
      rw [hop] at hthrow
      exact absurd hthrow (by simp)
    | rejects e0 =>
      cases hb0 : cfg.getBackoff e0 n with
      | none =>
        have htr := (sendReq_stop_eq cfg op n f e0 (Or.inl hb0)).1 hop
        have htr1 : (sendReq cfg op n (f + 1)).1 =
            [Ev.invoke n, Ev.inc 1, Ev.schedRelease 1 cfg.periodLength] := by
          rw [htr]
        rw [htr1] at hmem
        simp at hmem
        subst hmem
        rw [hop] at hthrow
        exact absurd hthrow (by simp)
      | some d =>
        cases d with
        | zero =>
          have htr := (sendReq_stop_eq cfg op n f e0 (Or.inr hb0)).1 hop
          have htr1 : (sendReq cfg op n (f + 1)).1 =
              [Ev.invoke n, Ev.inc 1, Ev.schedRelease 1 cfg.periodLength] := by
            rw [htr]
          rw [htr1] at hmem
          simp at hmem
          subst hmem
          rw [hop] at hthrow
          exact absurd hthrow (by simp)
        | succ d1 =>
          have htr := (sendReq_retry_eq cfg op n f e0 d1 hb0).1 hop
          have htr1 : (sendReq cfg op n (f + 1)).1 =
              Ev.invoke n :: Ev.inc 1 :: Ev.schedRelease 1 cfg.periodLength ::
                Ev.inc cfg.rateLim :: Ev.wait (d1 + 1) ::
                  ((sendReq cfg op (n + 1) f).1 ++
                    [Ev.dec cfg.rateLim, Ev.drain]) := by
            rw [htr]
          rw [htr1] at hmem ⊢
          simp only [List.mem_cons, List.mem_append] at hmem
          rcases hmem with h | h | h | h | h | h | h
          · simp only [Ev.invoke.injEq] at h
            subst h
            rw [hop] at hthrow
            exact absurd hthrow (by simp)
          · exact absurd h (by simp)
          · exact absurd h (by simp)
          · exact absurd h (by simp)
          · exact absurd h (by simp)
          · obtain ⟨pre, rest, heq, hrest⟩ := ih (n + 1) k e h hthrow hb
            refine ⟨Ev.invoke n :: Ev.inc 1 :: Ev.schedRelease 1 cfg.periodLength ::
              Ev.inc cfg.rateLim :: Ev.wait (d1 + 1) :: pre,
              rest ++ [Ev.dec cfg.rateLim, Ev.drain], ?_, ?_⟩
            · rw [heq]
              simp
            · intro ev hev
              rcases List.mem_append.mp hev with h2 | h2
              · exact hrest ev h2
              · rcases List.mem_cons.mp h2 with h2 | h2
                · exact Or.inl h2
                · exact Or.inr (List.mem_singleton.mp h2)
          · exact absurd h (by simp)
    | throws e0 =>
      cases hb0 : cfg.getBackoff e0 n with
      | none =>
        have htr := (sendReq_stop_eq cfg op n f e0 (Or.inl hb0)).2 hop
        have htr1 : (sendReq cfg op n (f + 1)).1 = [Ev.invoke n] := by
          rw [htr]
        rw [htr1] at hmem ⊢
        simp at hmem
        subst hmem
        exact ⟨[], [], rfl, by simp⟩
      | some d =>
        cases d with
        | zero =>
          have htr := (sendReq_stop_eq cfg op n f e0 (Or.inr hb0)).2 hop
          have htr1 : (sendReq cfg op n (f + 1)).1 = [Ev.invoke n] := by
            rw [htr]
          rw [htr1] at hmem ⊢
          simp at hmem
          subst hmem
          exact ⟨[], [], rfl, by simp⟩
        | succ d1 =>
          have htr := (sendReq_retry_eq cfg op n f e0 d1 hb0).2 hop
          have htr1 : (sendReq cfg op n (f + 1)).1 =
              Ev.invoke n ::
                Ev.inc cfg.rateLim :: Ev.wait (d1 + 1) ::
                  ((sendReq cfg op (n + 1) f).1 ++
                    [Ev.dec cfg.rateLim, Ev.drain]) := by
            rw [htr]
          rw [htr1] at hmem ⊢
          simp only [List.mem_cons, List.mem_append] at hmem
          rcases hmem with h | h | h | h | h
          · simp only [Ev.invoke.injEq] at h
            subst h
            rw [hop] at hthrow
            injection hthrow with he
            subst he
            rcases hb with hb | hb
            · rw [hb0] at hb
              exact absurd hb (by simp)
            · rw [hb0] at hb
              simp at hb
          · exact absurd h (by simp)
          · exact absurd h (by simp)
          · obtain ⟨pre, rest, heq, hrest⟩ := ih (n + 1) k e h hthrow hb
            refine ⟨Ev.invoke n :: Ev.inc cfg.rateLim :: Ev.wait (d1 + 1) :: pre,
              rest ++ [Ev.dec cfg.rateLim, Ev.drain], ?_, ?_⟩
            · rw [heq]
              simp
            · intro ev hev
              rcases List.mem_append.mp hev with h2 | h2
              · exact hrest ev h2
              · rcases List.mem_cons.mp h2 with h2 | h2
                · exact Or.inl h2
                · exact Or.inr (List.mem_singleton.mp h2)
          · exact absurd h (by simp)

/-- Claim C9 (amended: the counter increment does not precede the
invocation of the wrapped operation — see the counterexample theorem —
and on some admissions no happy-path increment happens at all): for
every invocation appearing in an execution trace (the admission gate and
queue draining both admit via `sendReq`), exactly the case split of the
source holds.  If the invocation returns a promise, the increment of
amount 1 and the scheduling of the release of the same amount after
`periodLength` through the accurate delay primitive follow the
invocation immediately, within the same synchronous step and before the
outcome is awaited.  If the invocation throws synchronously and the
backoff is truthy, the increment immediately following the invocation is
instead the containment increment of the whole capacity `rateLim`,
followed by the elapse of the backoff wait — the happy-path increment
and its `periodLength` release are skipped.  If the invocation throws
synchronously and the backoff is falsy, no increment at all occurs for
that admission: every later event of the trace is a release (decrement
of `rateLim` or drain) of previously consumed containment capacity. -/
theorem increment_follows_invoke {ε α : Type} (cfg : Config ε)
    (op : Nat → Attempt ε α) (fuel n k : Nat)
    (hmem : Ev.invoke k ∈ (sendReq cfg op n fuel).1) :
    ((∀ e, op k ≠ Attempt.throws e) →
      ∃ pre rest, (sendReq cfg op n fuel).1 =
        pre ++ Ev.invoke k :: Ev.inc 1 ::
          Ev.schedRelease 1 cfg.periodLength :: rest) ∧
    (∀ e d0, op k = Attempt.throws e →
      cfg.getBackoff e k = some (d0 + 1) →
      ∃ pre rest, (sendReq cfg op n fuel).1 =
        pre ++ Ev.invoke k :: Ev.inc cfg.rateLim :: Ev.wait (d0 + 1) :: rest) ∧
    (∀ e, op k = Attempt.throws e →
      (cfg.getBackoff e k = none ∨ cfg.getBackoff e k = some 0) →
      ∃ pre rest, (sendReq cfg op n fuel).1 = pre ++ Ev.invoke k :: rest ∧
        ∀ ev ∈ rest, ev = Ev.dec cfg.rateLim ∨ ev = Ev.drain) :=
  ⟨fun hnothrow => sendReq_invoke_inc_one cfg op fuel n k hmem hnothrow,
   fun e d0 hthrow hb =>
     sendReq_invoke_inc_rateLim cfg op fuel n k e d0 hmem hthrow hb,
   fun e hthrow hb => sendReq_invoke_no_inc cfg op fuel n k e hmem hthrow hb⟩

theorem increment_follows_invoke_witness :
    (∃ pre rest,
      (sendReq (Config.mk 3 5 (fun (_ : Nat) _ => none))
          (fun _ => Attempt.ok 0 : Nat → Attempt Nat Nat) 0 1).1 =
        pre ++ Ev.invoke 0 :: Ev.inc 1 :: Ev.schedRelease 1 5 :: rest) ∧
    (∃ pre rest,
      (sendReq (Config.mk 3 5 (fun (_ : Nat) _ => some 3))
          (fun _ => Attempt.throws 2 : Nat → Attempt Nat Nat) 0 2).1 =
        pre ++ Ev.invoke 0 :: Ev.inc 3 :: Ev.wait 3 :: rest) ∧
    (∃ pre rest,
      (sendReq (Config.mk 3 5 (fun (_ : Nat) _ => none))
          (fun _ => Attempt.throws 5 : Nat → Attempt Nat Nat) 0 1).1 =
        pre ++ Ev.invoke 0 :: rest ∧
        ∀ ev ∈ rest, ev = Ev.dec 3 ∨ ev = Ev.drain) :=
  ⟨(increment_follows_invoke (Config.mk 3 5 (fun (_ : Nat) _ => none))
      (fun _ => Attempt.ok 0 : Nat → Attempt Nat Nat) 1 0 0 (by decide)).1
      (fun e h => by simp at h),
   (increment_follows_invoke (Config.mk 3 5 (fun (_ : Nat) _ => some 3))
      (fun _ => Attempt.throws 2 : Nat → Attempt Nat Nat) 2 0 0 (by decide)).2.1
      2 2 rfl rfl,
   (increment_follows_invoke (Config.mk 3 5 (fun (_ : Nat) _ => none))
      (fun _ => Attempt.throws 5 : Nat → Attempt Nat Nat) 1 0 0 (by decide)).2.2
      5 rfl (Or.inl rfl)⟩

theorem openAmount_dec (a : Nat) : openAmount [CEv.dec a] = a := rfl

theorem openAmount_full (a : Nat) : openAmount [CEv.inc a, CEv.dec a] = 0 := rfl

theorem openAmount_nil : openAmount [] = 0 := rfl

theorem openSum_middle (xs zs : List (List CEv)) (y : List CEv) :
    openSum (xs ++ y :: zs) = openSum xs + (openAmount y + openSum zs) := by
  simp [openSum]

theorem shuffle_nonneg :
    ∀ (ls : List (List CEv)) (t : List CEv), Shuffle ls t →
      (∀ l ∈ ls, SessSuffix l) →
      nonnegRun (openSum ls) t = true := by
  intro ls t hs
  induction hs with
  | nil ls h => intro _; rfl
  | step ls₁ ls₂ l e t hs ih =>
    intro hsess
    have hel : SessSuffix (e :: l) := hsess _ (by simp)
    rcases hel with ⟨a, ha⟩ | ⟨a, ha⟩ | ha
    · injection ha with he hl
      subst he
      subst hl
      have hnew : ∀ l2 ∈ ls₁ ++ [CEv.dec a] :: ls₂, SessSuffix l2 := by
        intro l2 hl2
        rcases List.mem_append.mp hl2 with h2 | h2
        · exact hsess l2 (List.mem_append.mpr (Or.inl h2))
        · rcases List.mem_cons.mp h2 with h2 | h2
          · subst h2
            exact Or.inr (Or.inl ⟨a, rfl⟩)
          · exact hsess l2
              (List.mem_append.mpr (Or.inr (List.mem_cons.mpr (Or.inr h2))))
      simp only [nonnegRun, cevDelta, Bool.and_eq_true, decide_eq_true_eq]
      constructor
      · omega
      · have hcast :
            (↑(openSum (ls₁ ++ (CEv.inc a :: [CEv.dec a]) :: ls₂)) : Int) + ↑a =
              ↑(openSum (ls₁ ++ [CEv.dec a] :: ls₂)) := by
          rw [openSum_middle, openSum_middle, openAmount_full, openAmount_dec]
          push_cast
          ring
        rw [hcast]
        exact ih hnew
    · injection ha with he hl
      subst he
      subst hl
      have hnew : ∀ l2 ∈ ls₁ ++ ([] : List CEv) :: ls₂, SessSuffix l2 := by
        intro l2 hl2
        rcases List.mem_append.mp hl2 with h2 | h2
        · exact hsess l2 (List.mem_append.mpr (Or.inl h2))
        · rcases List.mem_cons.mp h2 with h2 | h2
          · subst h2
            exact Or.inr (Or.inr rfl)
          · exact hsess l2
              (List.mem_append.mpr (Or.inr (List.mem_cons.mpr (Or.inr h2))))
      have h1 : openSum (ls₁ ++ [CEv.dec a] :: ls₂) =
          openSum ls₁ + (a + openSum ls₂) := by
        rw [openSum_middle, openAmount_dec]
      have h2 : openSum (ls₁ ++ ([] : List CEv) :: ls₂) =
          openSum ls₁ + (0 + openSum ls₂) := by
        rw [openSum_middle, openAmount_nil]
      simp only [nonnegRun, cevDelta, Bool.and_eq_true, decide_eq_true_eq]
      constructor
      · rw [h1]
        push_cast
        omega
      · have hcast : (↑(openSum (ls₁ ++ [CEv.dec a] :: ls₂)) : Int) + -(↑a : Int) =
            ↑(openSum (ls₁ ++ ([] : List CEv) :: ls₂)) := by
          rw [h1, h2]
          push_cast
          ring
        rw [hcast]
        exact ih hnew
    · exact absurd ha (List.cons_ne_nil e l)

/-- Claim C2: the capacity counter `requestsLastPeriod` is non-negative
at all times, and every increment has exactly one matching eventual
decrement of the same amount: a `blockRequests` session's mutations are
exactly one increment followed by one decrement of the same amount,
whether the guarded promise resolves or rejects (the decrement runs in a
`finally` block), and along any event-loop interleaving of such sessions
the counter, started at 0, never goes below 0 at any point. -/
theorem counter_nonneg_release_exact :
    (∀ (amount : Nat) (outcome : Except Unit Unit),
        blockRequests amount outcome = [CEv.inc amount, CEv.dec amount]) ∧
    (∀ (ls : List (List CEv)) (t : List CEv),
        (∀ l ∈ ls, ∃ a outcome, l = blockRequests a outcome) →
        Shuffle ls t → nonnegRun 0 t = true) := by
  constructor
  · intro amount outcome
    cases outcome <;> rfl
  · intro ls t hfull hs
    have hsess : ∀ l ∈ ls, SessSuffix l := by
      intro l hl
      obtain ⟨a, o, ho⟩ := hfull l hl
      subst ho
      cases o <;> exact Or.inl ⟨a, rfl⟩
    have hzero : openSum ls = 0 := by
      show (ls.map openAmount).sum = 0
      apply List.sum_eq_zero
      intro x hx
      obtain ⟨l, hl, hxl⟩ := List.mem_map.mp hx
      obtain ⟨a, o, ho⟩ := hfull l hl
      rw [← hxl, ho]
      cases o <;> rfl
    have hrun := shuffle_nonneg ls t hs hsess
    rw [hzero] at hrun
    simpa using hrun

theorem counter_nonneg_release_exact_witness :
    nonnegRun 0 [CEv.inc 1, CEv.inc 2, CEv.dec 1, CEv.dec 2] = true :=
  counter_nonneg_release_exact.2
    [[CEv.inc 1, CEv.dec 1], [CEv.inc 2, CEv.dec 2]]
    [CEv.inc 1, CEv.inc 2, CEv.dec 1, CEv.dec 2]
    (by
      intro l hl
      rcases List.mem_cons.mp hl with h | h
      · exact ⟨1, Except.ok (), h⟩
      · exact ⟨2, Except.ok (), List.mem_singleton.mp h⟩)
    (Shuffle.step [] [[CEv.inc 2, CEv.dec 2]] [CEv.dec 1] (CEv.inc 1)
      [CEv.inc 2, CEv.dec 1, CEv.dec 2]
      (Shuffle.step [[CEv.dec 1]] [] [CEv.dec 2] (CEv.inc 2)
        [CEv.dec 1, CEv.dec 2]
        (Shuffle.step [] [[CEv.dec 2]] [] (CEv.dec 1) [CEv.dec 2]
          (Shuffle.step [[]] [] [] (CEv.dec 2) []
            (Shuffle.nil [[], []] (by
              intro l hl
              rcases List.mem_cons.mp hl with h | h
              · exact h
              · exact List.mem_singleton.mp h))))))

end PoliteCall
